import Mathlib

/-!
Formal model of the PyTOpt FEM core (`Pytopt/FE.py`): the model initializer
`FE.__init__`, the linear assembler/solver `FE.fe`, and the Newton-Raphson
nonlinear solver `FE.fe_nl`.  Scalars are modelled as rationals (exact real
arithmetic in place of floating point); the external element routine, material
routine and the sparse linear solver `scipy.sparse.linalg.spsolve` are opaque
parameters, exactly as they are pluggable call-backs in the source.
-/

namespace Pytopt

/-- Total list indexing: `nth l p` is the `p`-th entry of `l` (0 out of range).
Models reading position `p` of a numpy integer index array. -/
def nth : List ℕ → ℕ → ℕ
  | [], _ => 0
  | a :: _, 0 => a
  | _ :: t, p + 1 => nth t p

/-- Position of the last occurrence of `i` in `idx`, if any.  numpy fancy
assignment `v[idx] = vals` writes the positions in order, so at duplicated
indices the value from the last position wins. -/
def lastPos : List ℕ → ℕ → Option ℕ
  | [], _ => none
  | a :: t, i =>
    match lastPos t i with
    | some p => some (p + 1)
    | none => if a = i then some 0 else none

/-- numpy fancy assignment `v[np.ix_(idx)] = vals`: entry `i` receives the value
at the last position of `idx` holding `i`, and is untouched if `i` is not in
`idx`. -/
def ixAssignVals (v : ℕ → ℚ) (idx : List ℕ) (vals : ℕ → ℚ) : ℕ → ℚ :=
  fun i =>
    match lastPos idx i with
    | some p => vals p
    | none => v i

/-- numpy in-place add `v[np.ix_(idx)] += w`: the right-hand side `v[idx] + w`
is evaluated first from the original `v` and then assigned position by
position (so duplicated indices are overwritten, not accumulated, matching
numpy's buffered fancy-index `+=`). -/
def ixAddAssign (v : ℕ → ℚ) (idx : List ℕ) (w : ℕ → ℚ) : ℕ → ℚ :=
  ixAssignVals v idx (fun p => v (nth idx p) + w p)

/-- Sum of `w p` over the positions `p` of `idx` that hold the index `i`:
the total contribution scattered onto global index `i` by one element. -/
def scatterSum : List ℕ → (ℕ → ℚ) → ℕ → ℚ
  | [], _, _ => 0
  | a :: t, w, i => (if a = i then w 0 else 0) + scatterSum t (fun p => w (p + 1)) i

/-- Accumulation pass over elements `0, …, n-1`: each element performs a fancy
`+=` of its local vector `w e` through its global index list `idx e`.  This is
the shape of every force-vector accumulation loop in `FE.fe` and `FE.fe_nl`. -/
def passAcc (idx : ℕ → List ℕ) (w : ℕ → ℕ → ℚ) : ℕ → (ℕ → ℚ) → (ℕ → ℚ)
  | 0, v => v
  | e + 1, v => ixAddAssign (passAcc idx w e v) (idx e) (w e)

/-- Per-element overwrite pass: element `e` stores the value `g e` into slot `e`
(used for the `dR` rows and the per-element stress/strain summaries). -/
def passUpd {α : Type} (g : ℕ → α) : ℕ → (ℕ → α) → (ℕ → α)
  | 0, v => v
  | e + 1, v => Function.update (passUpd g e v) e (g e)

/-- Value of a COO triplet list seen as a matrix: scipy's
`coo_matrix((data,(row,col))).tocsc()` sums the values of all triplets that
share the same (row, col) pair. -/
def cooToFun (ts : List (ℕ × ℕ × ℚ)) (i j : ℕ) : ℚ :=
  (ts.map (fun t => if t.1 = i ∧ t.2.1 = j then t.2.2 else 0)).sum

/-- Triplets produced for local column index `a` of one element: the source
extends `row` with the index list cycled (`edofIndex*len(edofIndex)`), `col`
with the index list repeated entrywise (`np.repeat`), and `data` with the
row-major flattening of `Ke*scale`; at flat position `a*nd+b` this pairs
`(row, col, data) = (idx[b], idx[a], scale*Ke[a][b])`. -/
def tripRow (idx : List ℕ) (Ke : ℕ → ℕ → ℚ) (c : ℚ) (a : ℕ) : List (ℕ × ℕ × ℚ) :=
  (List.range idx.length).map (fun b => (nth idx b, nth idx a, c * Ke a b))

def tripRows (idx : List ℕ) (Ke : ℕ → ℕ → ℚ) (c : ℚ) : ℕ → List (ℕ × ℕ × ℚ)
  | 0 => []
  | a + 1 => tripRows idx Ke c a ++ tripRow idx Ke c a

/-- All `nd*nd` COO triplets contributed by one element with local stiffness
`Ke`, global index list `idx` and SIMP scale factor `c`. -/
def scatterTriplets (idx : List ℕ) (Ke : ℕ → ℕ → ℚ) (c : ℚ) : List (ℕ × ℕ × ℚ) :=
  tripRows idx Ke c idx.length

/-- Triplet accumulation over elements `0, …, n-1`, mirroring the
`row/col/data` list `extend` calls in the element loops of `FE.fe`/`FE.fe_nl`. -/
def passTrip (idx : ℕ → List ℕ) (KeOf : ℕ → ℕ → ℕ → ℚ) (cOf : ℕ → ℚ) : ℕ → List (ℕ × ℕ × ℚ)
  | 0 => []
  | e + 1 => passTrip idx KeOf cOf e ++ scatterTriplets (idx e) (KeOf e) (cOf e)

/-- Output bundle of the pluggable element routine: element stiffness matrix
`Ke`, internal force `fint`, external (body) force `fext`, and the 6-component
stress and strain vectors. -/
structure ElemOut where
  Ke : ℕ → ℕ → ℚ
  fint : ℕ → ℚ
  fext : ℕ → ℚ
  sig : Fin 6 → ℚ
  eps : Fin 6 → ℚ

/-- The pluggable element routine, applied to the element's nodal displacement
slice, its nodal x / y coordinates and the element-property list `ep`.  The
material parameters, the material routine and the optional body force of the
source signature are opaque pass-through data and are folded into this
closure. -/
def ElemFun : Type := (ℕ → ℚ) → (ℕ → ℚ) → (ℕ → ℚ) → List ℚ → ElemOut

/-- The external sparse solver `scipy.sparse.linalg.spsolve`, applied to the
free-DOF submatrix and the free-DOF right-hand side (both indexed by position
in the free-DOF list). -/
def Solver : Type := (ℕ → ℕ → ℚ) → (ℕ → ℚ) → (ℕ → ℚ)

/-- Static model data produced by `FE.__init__`: element count, global DOF
count, per-element 1-based DOF rows (`edof`), per-element nodal coordinates and
the free-DOF list. -/
structure FEModel where
  nElem : ℕ
  ndof : ℕ
  edof : ℕ → List ℕ
  elemX : ℕ → ℕ → ℚ
  elemY : ℕ → ℕ → ℚ
  freedofs : List ℕ

/-- The 0-based DOF index list of element `e`: `(self.edof[elem,:]-1).tolist()`. -/
def edofIdx (m : FEModel) (e : ℕ) : List ℕ := (m.edof e).map (fun d => d - 1)

/-- Element routine output used by the linear assembler `FE.fe`: the element is
probed at zero displacement with the linear-forced property list
(`epLin = ep.copy(); epLin[3] = 1`). -/
def feOutAt (m : FEModel) (ep : List ℚ) (ef : ElemFun) (e : ℕ) : ElemOut :=
  ef (fun _ => 0) (m.elemX e) (m.elemY e) (ep.set 3 1)

/-- Outputs of the linear assembler/solver `FE.fe`. -/
structure FeOut where
  U : ℕ → ℚ
  fext_tilde : ℕ → ℚ
  fextGlobal : ℕ → ℚ
  Ktrip : List (ℕ × ℕ × ℚ)

/-- The linear assembler/solver `FE.fe` (Pytopt/FE.py lines 102-135).  For every
element it evaluates the element routine at zero displacement with the
linear-forced `ep`, scatters `Ke * x[e]**SIMP_penal` into the COO triplets,
adds `fext * x[e]` into the copy `fextGlobal` of `F` and `fext` unscaled into
`fext_tilde`, then solves the free-DOF system and writes the solution into the
free-DOF entries of `U`. -/
def fe (m : FEModel) (x : ℕ → ℚ) (SIMP_penal : ℕ) (F : ℕ → ℚ) (ep : List ℚ)
    (ef : ElemFun) (solver : Solver) (U0 : ℕ → ℚ) : FeOut :=
  let out := feOutAt m ep ef
  let idx := edofIdx m
  let fextGlobal := passAcc idx (fun e j => (out e).fext j * x e) m.nElem F
  let fext_tilde := passAcc idx (fun e j => (out e).fext j) m.nElem (fun _ => 0)
  let trips := passTrip idx (fun e => (out e).Ke) (fun e => x e ^ SIMP_penal) m.nElem
  let Kf := cooToFun trips
  let sol := solver (fun a b => Kf (nth m.freedofs a) (nth m.freedofs b))
    (fun a => fextGlobal (nth m.freedofs a))
  { U := ixAssignVals U0 m.freedofs sol
    fext_tilde := fext_tilde
    fextGlobal := fextGlobal
    Ktrip := trips }

/-- Radicand of the von Mises stress of a 6-component stress vector, as in
Pytopt/FE.py line 223. -/
def vonMisesSq (s : Fin 6 → ℚ) : ℚ :=
  ((s 0 - s 1) ^ 2 + (s 1 - s 2) ^ 2 + (s 2 - s 0) ^ 2) / 2
    + 3 * ((s 3) ^ 2 + (s 4) ^ 2 + (s 5) ^ 2)

/-- Von Mises stress `np.sqrt(((sig[0]-sig[1])**2 + (sig[1]-sig[2])**2 +
(sig[2]-sig[0])**2)/2 + 3*(sig[3]**2+sig[4]**2+sig[5]**2))`. -/
noncomputable def vonMisesR (s : Fin 6 → ℚ) : ℝ := Real.sqrt ((vonMisesSq s : ℚ) : ℝ)

/-- Maximum of the absolute values of the first `n` entries of `v`, modelling
`max(abs(fextGlobal))` over the global force vector. -/
def maxAbs (v : ℕ → ℚ) (n : ℕ) : ℚ := ((List.range n).map (fun i => |v i|)).foldr max 0

/-- Displacement slice of element `e`: `Ue = U[edofIndex1D]` reshaped to the
local DOF length. -/
def UeOf (m : FEModel) (U : ℕ → ℚ) (e : ℕ) : ℕ → ℚ := fun p => U (nth (edofIdx m e) p)

/-- Element routine output in a Newton iteration of `FE.fe_nl`: the element is
evaluated at the current displacement slice with the actual (non-forced)
element properties `ep`. -/
def iterOut (m : FEModel) (ep : List ℚ) (ef : ElemFun) (U : ℕ → ℚ) : ℕ → ElemOut :=
  fun e => ef (UeOf m U e) (m.elemX e) (m.elemY e) ep

/-- State of the Newton-Raphson loop of `FE.fe_nl`: the local variables of the
source that persist across (or are recomputed by) one `while` pass. -/
structure NLState where
  U : ℕ → ℚ
  dR : ℕ → ℕ → ℚ
  sigVM : ℕ → ℝ
  epsH : ℕ → ℚ
  fext_tilde : ℕ → ℚ
  fextGlobal : ℕ → ℚ
  fintGlobal : ℕ → ℚ
  Ktrip : List (ℕ × ℕ × ℚ)
  err : ℝ
  TOL : ℚ
  newtonIt : ℕ

/-- One Newton iteration body up to and including the residual norm
(Pytopt/FE.py lines 194-231): re-accumulate `fextGlobal` (from a fresh copy of
`F`, scaled by `x[e]`), `fintGlobal` (scaled by `x[e]**SIMP_const`),
`fext_tilde` (unscaled), the per-element `dR` rows, the stiffness triplets, the
per-element von Mises stress and hydrostatic strain, then set
`err = norm((fintGlobal - fextGlobal)[freedofs])` and advance the iteration
counter.  `U` and `TOL` are untouched here. -/
noncomputable def newtonStep (m : FEModel) (x : ℕ → ℚ) (SIMP_const : ℕ) (F : ℕ → ℚ)
    (ep : List ℚ) (ef : ElemFun) (s : NLState) : NLState :=
  let out := iterOut m ep ef s.U
  let idx := edofIdx m
  let fextGlobal := passAcc idx (fun e j => (out e).fext j * x e) m.nElem F
  let fintGlobal := passAcc idx (fun e j => (out e).fint j * x e ^ SIMP_const) m.nElem
    (fun _ => 0)
  let fext_tilde := passAcc idx (fun e j => (out e).fext j) m.nElem (fun _ => 0)
  let dR := passUpd (fun e => fun j =>
    (SIMP_const : ℚ) * x e ^ (SIMP_const - 1) * (out e).fint j - (out e).fext j)
    m.nElem (fun _ _ => 0)
  let sigVM := passUpd (fun e => vonMisesR (out e).sig) m.nElem s.sigVM
  let epsH := passUpd (fun e => ((out e).eps 0 + (out e).eps 1) / 3) m.nElem s.epsH
  let trips := passTrip idx (fun e => (out e).Ke) (fun e => x e ^ SIMP_const) m.nElem
  let R := fun i => fintGlobal i - fextGlobal i
  { U := s.U
    dR := dR
    sigVM := sigVM
    epsH := epsH
    fext_tilde := fext_tilde
    fextGlobal := fextGlobal
    fintGlobal := fintGlobal
    Ktrip := trips
    err := Real.sqrt (((m.freedofs.map (fun i => (R i) ^ 2)).sum : ℚ) : ℝ)
    TOL := s.TOL
    newtonIt := s.newtonIt + 1 }

/-- Tail of a Newton iteration, executed only when the 100-iteration break is
not taken (Pytopt/FE.py lines 236-238): tighten the tolerance to
`1e-11*max(max(abs(fextGlobal)), 1e4)` and apply the Newton update
`U[free] = U[free] - spsolve(K[free,free], R[free])`. -/
def newtonUpdate (m : FEModel) (solver : Solver) (s : NLState) : NLState :=
  let R := fun i => s.fintGlobal i - s.fextGlobal i
  let Kf := cooToFun s.Ktrip
  let sol := solver (fun a b => Kf (nth m.freedofs a) (nth m.freedofs b))
    (fun a => R (nth m.freedofs a))
  { s with
    TOL := (1e-11 : ℚ) * max (maxAbs s.fextGlobal m.ndof) 1e4
    U := ixAssignVals s.U m.freedofs (fun a => s.U (nth m.freedofs a) - sol a) }

/-- The Newton-Raphson `while err > TOL` loop of `FE.fe_nl`.  The loop body
always terminates within 100 passes because `newtonIt` is incremented each pass
and `if newtonIt == 100: break` fires before the tolerance and displacement
updates; the fuel argument (instantiated with 100) makes that bound
structural. -/
noncomputable def newtonLoop (m : FEModel) (x : ℕ → ℚ) (SIMP_const : ℕ) (F : ℕ → ℚ)
    (ep : List ℚ) (ef : ElemFun) (solver : Solver) : ℕ → NLState → NLState
  | 0, s => s
  | fuel + 1, s =>
    if s.err > (s.TOL : ℝ) then
      let s1 := newtonStep m x SIMP_const F ep ef s
      if s1.newtonIt = 100 then s1
      else newtonLoop m x SIMP_const F ep ef solver fuel (newtonUpdate m solver s1)
    else s

/-- Loop state on entry of the Newton iteration (Pytopt/FE.py lines 174-187):
an arbitrarily big error `1e9`, the bootstrap tolerance `1e-11`, the outputs of
the initial `FE.fe` call, and all-zero per-element summaries. -/
def nlInit (fr : FeOut) : NLState :=
  { U := fr.U
    dR := fun _ _ => 0
    sigVM := fun _ => 0
    epsH := fun _ => 0
    fext_tilde := fr.fext_tilde
    fextGlobal := fr.fextGlobal
    fintGlobal := fun _ => 0
    Ktrip := fr.Ktrip
    err := 1e9
    TOL := 1e-11
    newtonIt := 0 }

/-- A Python value that is either the literal empty list `[]` or an array:
`FE.fe_nl` returns `[]` for `dR` and `sig_VM` on its linear early exit but a
zeros array for `eps_h`. -/
inductive PyVal (α : Type) : Type
  | emptyList : PyVal α
  | arr : α → PyVal α

/-- Outputs of the nonlinear solver `FE.fe_nl`, together with the final values
of the loop-control variables `err`, `TOL`, `newtonIt`. -/
structure NLResult where
  U : ℕ → ℚ
  dR : PyVal (ℕ → ℕ → ℚ)
  sigVM : PyVal (ℕ → ℝ)
  epsH : PyVal (ℕ → ℚ)
  fext_tilde : ℕ → ℚ
  fextGlobal : ℕ → ℚ
  freedofs : List ℕ
  Ktrip : List (ℕ × ℕ × ℚ)
  err : ℝ
  TOL : ℚ
  newtonIt : ℕ

/-- The nonlinear solver `FE.fe_nl` (Pytopt/FE.py lines 138-245): one call to
the linear assembler `FE.fe`, immediate return with `dR = []`, `sig_VM = []`
and the all-zero `eps_h` array when `ep[3] == 1` (linear material), otherwise
the Newton-Raphson loop. -/
noncomputable def fe_nl (m : FEModel) (x : ℕ → ℚ) (SIMP_const : ℕ) (F : ℕ → ℚ)
    (ep : List ℚ) (ef : ElemFun) (solver : Solver) (U0 : ℕ → ℚ) : NLResult :=
  let fr := fe m x SIMP_const F ep ef solver U0
  if ep.getD 3 0 = 1 then
    { U := fr.U
      dR := PyVal.emptyList
      sigVM := PyVal.emptyList
      epsH := PyVal.arr (fun _ => 0)
      fext_tilde := fr.fext_tilde
      fextGlobal := fr.fextGlobal
      freedofs := m.freedofs
      Ktrip := fr.Ktrip
      err := 1e9
      TOL := 1e-11
      newtonIt := 0 }
  else
    let sf := newtonLoop m x SIMP_const F ep ef solver 100 (nlInit fr)
    { U := sf.U
      dR := PyVal.arr sf.dR
      sigVM := PyVal.arr sf.sigVM
      epsH := PyVal.arr sf.epsH
      fext_tilde := sf.fext_tilde
      fextGlobal := sf.fextGlobal
      freedofs := m.freedofs
      Ktrip := sf.Ktrip
      err := sf.err
      TOL := sf.TOL
      newtonIt := sf.newtonIt }

/-- Failure modes of the model initializer: an unrecognized element shape
(`raise Exception('Unrecognized Element Shape, Check eDof Matrix')`), or an
out-of-range node index when gathering nodal coordinates. -/
inductive FEError : Type
  | unsupportedElementShape : FEError
  | indexError : FEError
deriving DecidableEq

/-- Node index of a 1-based DOF index: `np.ceil(dof*0.5) - 1`. -/
def nodeOf (d : ℕ) : ℕ := (d + 1) / 2 - 1

/-- The numpy slice `l[0:8:2]`: positions 0, 2, 4, 6, clipped to the length of
`l` (3 entries for a triangle row, 4 for a quad row). -/
def slice02 (l : List ℕ) : List ℕ :=
  (([0, 2, 4, 6] : List ℕ).filter (fun p => decide (p < l.length))).map (fun p => nth l p)

/-- Gather `nx[node]` for each node index, failing on an out-of-range index as
numpy indexing does. -/
def coordsAt (nx : List ℚ) (nodes : List ℕ) : Except FEError (List ℚ) :=
  nodes.mapM (fun nd =>
    if nd < nx.length then Except.ok (nx.getD nd 0) else Except.error FEError.indexError)

/-- Total DOF count `np.max(edof)`. -/
def maxDof (edof : List (List ℕ)) : ℕ := (edof.map (fun r => r.foldr max 0)).foldr max 0

/-- Static data computed by `FE.__init__`. -/
structure InitData where
  ndof : ℕ
  nElem : ℕ
  elemX : List (List ℚ)
  elemY : List (List ℚ)
  freedofs : List ℕ

/-- The model initializer `FE.__init__` (Pytopt/FE.py lines 30-68): derive the
DOF count, check the element row length (6 for triangles, 8 for quads, anything
else is an unsupported element shape), gather each element's nodal coordinates
through `node = ceil(dof/2) - 1` over the slice `[0:8:2]`, and form the
free-DOF list as the complement of the fixed DOFs. -/
def initFE (edof : List (List ℕ)) (nx ny : List ℚ) (fixdofs : List ℕ) :
    Except FEError InitData :=
  let ndof := maxDof edof
  let r0 := edof.headD []
  if r0.length = 6 ∨ r0.length = 8 then do
    let ex ← edof.mapM (fun r => coordsAt nx (slice02 (r.map nodeOf)))
    let ey ← edof.mapM (fun r => coordsAt ny (slice02 (r.map nodeOf)))
    Except.ok
      { ndof := ndof
        nElem := edof.length
        elemX := ex
        elemY := ey
        freedofs := (List.range ndof).filter (fun d => decide (d ∉ fixdofs)) }
  else Except.error FEError.unsupportedElementShape

/-- A heap of numpy arrays with an allocation counter, used to model aliasing
and in-place mutation: `F.copy()` allocates a fresh array, `+=` through fancy
indexing mutates an existing one. -/
structure Heap where
  next : ℕ
  mem : ℕ → ℕ → ℚ

def hread (h : Heap) (r : ℕ) : ℕ → ℚ := h.mem r

def hwrite (h : Heap) (r : ℕ) (v : ℕ → ℚ) : Heap :=
  { next := h.next, mem := Function.update h.mem r v }

def halloc (h : Heap) (v : ℕ → ℚ) : ℕ × Heap :=
  (h.next, { next := h.next + 1, mem := Function.update h.mem h.next v })

/-- Mutation trace of the element loop of `FE.fe` on the heap (lines 112-126):
every element adds `fext*x[e]` in place into the array `gref` (the copy of `F`)
and `fext` in place into `tref` (`fext_tilde`). -/
def feVecLoop (out : ℕ → ElemOut) (idx : ℕ → List ℕ) (x : ℕ → ℚ) (gref tref : ℕ) :
    ℕ → Heap → Heap
  | 0, h => h
  | e + 1, h =>
    let h1 := feVecLoop out idx x gref tref e h
    let h2 := hwrite h1 gref (ixAddAssign (hread h1 gref) (idx e) (fun j => (out e).fext j * x e))
    hwrite h2 tref (ixAddAssign (hread h2 tref) (idx e) (fun j => (out e).fext j))

/-- Mutation trace of `FE.fe` on the heap (lines 102-132): allocate
`fextGlobal = F.copy()` and `fext_tilde = np.zeros(...)`, run the element
accumulation loop on those two fresh arrays, then write the solved free-DOF
entries into the displacement array `Uref` in place.  The solver output is an
opaque vector `sol` since its values cannot touch `F`. -/
def feProg (m : FEModel) (x : ℕ → ℚ) (ep : List ℚ) (ef : ElemFun) (sol : ℕ → ℚ)
    (Fref Uref : ℕ) (h0 : Heap) : Heap :=
  let a1 := halloc h0 (hread h0 Fref)
  let a2 := halloc a1.2 (fun _ => 0)
  let h3 := feVecLoop (feOutAt m ep ef) (edofIdx m) x a1.1 a2.1 m.nElem a2.2
  hwrite h3 Uref (ixAssignVals (hread h3 Uref) m.freedofs sol)

/-- Mutation trace of the element loop of one Newton iteration of `FE.fe_nl`
(lines 204-221) on the three freshly allocated force arrays. -/
def nlVecLoop (out : ℕ → ElemOut) (idx : ℕ → List ℕ) (x : ℕ → ℚ) (p : ℕ)
    (gref iref tref : ℕ) : ℕ → Heap → Heap
  | 0, h => h
  | e + 1, h =>
    let h1 := nlVecLoop out idx x p gref iref tref e h
    let h2 := hwrite h1 gref (ixAddAssign (hread h1 gref) (idx e) (fun j => (out e).fext j * x e))
    let h3 := hwrite h2 iref (ixAddAssign (hread h2 iref) (idx e) (fun j => (out e).fint j * x e ^ p))
    hwrite h3 tref (ixAddAssign (hread h3 tref) (idx e) (fun j => (out e).fext j))

/-- Mutation trace of one Newton iteration of `FE.fe_nl` (lines 194-238):
allocate `fext_tilde = np.zeros(...)`, `fextGlobal = F.copy()`,
`fintGlobal = np.zeros(...)`, run the element loop on them, then update the
free-DOF entries of the displacement array in place. -/
def nlIterProg (m : FEModel) (x : ℕ → ℚ) (p : ℕ) (ep : List ℚ) (ef : ElemFun)
    (sol : ℕ → ℚ) (Fref Uref : ℕ) (h : Heap) : Heap :=
  let a1 := halloc h (fun _ => 0)
  let a2 := halloc a1.2 (hread a1.2 Fref)
  let a3 := halloc a2.2 (fun _ => 0)
  let h3 := nlVecLoop (iterOut m ep ef (hread a3.2 Uref)) (edofIdx m) x p a2.1 a3.1 a1.1
    m.nElem a3.2
  hwrite h3 Uref (ixAssignVals (hread h3 Uref) m.freedofs
    (fun a => hread h3 Uref (nth m.freedofs a) - sol a))

/-- Mutation trace of `FE.fe_nl`: the initial `FE.fe` call followed by `k`
Newton iterations. -/
def nlProg (m : FEModel) (x : ℕ → ℚ) (p : ℕ) (ep : List ℚ) (ef : ElemFun)
    (sol : ℕ → ℚ) (Fref Uref : ℕ) : ℕ → Heap → Heap
  | 0, h => feProg m x ep ef sol Fref Uref h
  | k + 1, h => nlIterProg m x p ep ef sol Fref Uref (nlProg m x p ep ef sol Fref Uref k h)

/-- Concrete one-element quad-free test model: one triangle-shaped DOF row
`[1..6]`, six DOFs, DOF 0 free and all others fixed. -/
def wModel : FEModel :=
  { nElem := 1
    ndof := 6
    edof := fun _ => [1, 2, 3, 4, 5, 6]
    elemX := fun _ _ => 0
    elemY := fun _ _ => 0
    freedofs := [0] }

/-- Concrete element routine with unit stiffness/force outputs. -/
def wEf : ElemFun :=
  fun _ _ _ _ =>
    { Ke := fun _ _ => 1
      fint := fun _ => 1
      fext := fun _ => 1
      sig := fun _ => 0
      eps := fun _ => 0 }

/-- Concrete element routine with a tiny constant internal force
`1/20000000 = 5e-8` and no external force, driving the Newton residual to
`5e-8` on every iteration. -/
def cEf : ElemFun :=
  fun _ _ _ _ =>
    { Ke := fun _ _ => 0
      fint := fun _ => 1 / 20000000
      fext := fun _ => 0
      sig := fun _ => 0
      eps := fun _ => 0 }

/-- Concrete solver stub returning the zero vector. -/
def wSolver : Solver := fun _ _ => fun _ => 0

/-- Concrete all-ones density field. -/
def wx : ℕ → ℚ := fun _ => 1

/-- Concrete all-halves density field. -/
def cxX : ℕ → ℚ := fun _ => 1 / 2

/-- Concrete zero vector. -/
def wzero : ℕ → ℚ := fun _ => 0

/-- Concrete element-property list with the nonlinear flag (`ep[3] = 0`). -/
def wEp : List ℚ := [1, 0, 2, 0]

/-- Concrete element-property list with the linear flag (`ep[3] = 1`). -/
def wEpLin : List ℚ := [1, 0, 2, 1]

/-- Concrete two-array heap for the frame-property witnesses. -/
def wHeap : Heap := { next := 2, mem := fun r i => if r = 0 then (i : ℚ) + 1 else 0 }

/-- Concrete Newton-loop state with zero displacement and the bootstrap
error/tolerance pair. -/
def wState : NLState :=
  { U := fun _ => 0
    dR := fun _ _ => 0
    sigVM := fun _ => 0
    epsH := fun _ => 0
    fext_tilde := fun _ => 0
    fextGlobal := fun _ => 0
    fintGlobal := fun _ => 0
    Ktrip := []
    err := 1e9
    TOL := 1e-11
    newtonIt := 0 }

/-- Initial Newton-loop state of the concrete run of `FE.fe_nl` driven by the
tiny-residual element routine `cEf`. -/
def cS0 : NLState := nlInit (fe wModel wx 1 wzero wEp cEf wSolver wzero)

/-- State after the first Newton iteration body of the concrete run. -/
noncomputable def cS1 : NLState := newtonStep wModel wx 1 wzero wEp cEf cS0

/-- State after the first tolerance/displacement update of the concrete run. -/
noncomputable def cS2 : NLState := newtonUpdate wModel wSolver cS1

/-- The literal stress vector `[1, 2, 3, 0, 0, 0]` of the spec's von Mises
example. -/
def sigDemo : Fin 6 → ℚ := fun i => [1, 2, 3, 0, 0, 0].getD i.val 0

theorem lastPos_eq_none (idx : List ℕ) (i : ℕ) (h : i ∉ idx) : lastPos idx i = none := by
  induction idx with
  | nil => rfl
  | cons a t ih =>
    have hi : i ∉ t := fun hm => h (List.mem_cons_of_mem a hm)
    have ha : a ≠ i := fun he => h (he ▸ List.mem_cons_self a t)
    simp [lastPos, ih hi, ha]

theorem scatterSum_eq_zero (idx : List ℕ) (w : ℕ → ℚ) (i : ℕ) (h : i ∉ idx) :
    scatterSum idx w i = 0 := by
  induction idx generalizing w with
  | nil => rfl
  | cons a t ih =>
    have hi : i ∉ t := fun hm => h (List.mem_cons_of_mem a hm)
    have ha : a ≠ i := fun he => h (he ▸ List.mem_cons_self a t)
    simp [scatterSum, ha, ih _ hi]

theorem ixAssignVals_not_mem (v : ℕ → ℚ) (idx : List ℕ) (vals : ℕ → ℚ) (i : ℕ)
    (h : i ∉ idx) : ixAssignVals v idx vals i = v i := by
  simp [ixAssignVals, lastPos_eq_none idx i h]

theorem ixAddAssign_not_mem (v : ℕ → ℚ) (idx : List ℕ) (w : ℕ → ℚ) (i : ℕ)
    (h : i ∉ idx) : ixAddAssign v idx w i = v i :=
  ixAssignVals_not_mem v idx _ i h

/-- On an index list without duplicates, numpy's fancy `+=` adds exactly the
scattered contributions. -/
theorem ixAddAssign_nodup (v : ℕ → ℚ) (idx : List ℕ) (w : ℕ → ℚ) (i : ℕ)
    (h : idx.Nodup) : ixAddAssign v idx w i = v i + scatterSum idx w i := by
  induction idx generalizing w with
  | nil => simp [ixAddAssign, ixAssignVals, lastPos, scatterSum]
  | cons a t ih =>
    rcases List.nodup_cons.mp h with ⟨ha, ht⟩
    by_cases hia : a = i
    · subst hia
      have hnt : lastPos t a = none := lastPos_eq_none t a ha
      have hs : scatterSum t (fun p => w (p + 1)) a = 0 := scatterSum_eq_zero t _ a ha
      simp [ixAddAssign, ixAssignVals, lastPos, hnt, scatterSum, hs, nth]
    · have hrec := ih (fun p => w (p + 1)) ht
      simp only [ixAddAssign, ixAssignVals, lastPos, scatterSum, if_neg hia] at hrec ⊢
      cases hlp : lastPos t i with
      | none => simpa [hlp] using hrec
      | some p => simpa [hlp, nth] using hrec

theorem passAcc_eq (idx : ℕ → List ℕ) (w : ℕ → ℕ → ℚ) (n : ℕ) (v : ℕ → ℚ) (i : ℕ)
    (hn : ∀ e, e < n → (idx e).Nodup) :
    passAcc idx w n v i = v i + ∑ e in Finset.range n, scatterSum (idx e) (w e) i := by
  induction n with
  | zero => simp [passAcc]
  | succ n ih =>
    rw [passAcc, ixAddAssign_nodup _ _ _ _ (hn n (Nat.lt_succ_self n)),
      ih (fun e he => hn e (he.trans (Nat.lt_succ_self n))), Finset.sum_range_succ]
    ring

theorem passAcc_not_mem (idx : ℕ → List ℕ) (w : ℕ → ℕ → ℚ) (n : ℕ) (v : ℕ → ℚ) (i : ℕ)
    (hn : ∀ e, e < n → i ∉ idx e) : passAcc idx w n v i = v i := by
  induction n with
  | zero => rfl
  | succ n ih =>
    rw [passAcc, ixAddAssign_not_mem _ _ _ _ (hn n (Nat.lt_succ_self n)),
      ih (fun e he => hn e (he.trans (Nat.lt_succ_self n)))]

theorem passUpd_lt {α : Type} (g : ℕ → α) (n : ℕ) (v : ℕ → α) (i : ℕ) (h : i < n) :
    passUpd g n v i = g i := by
  induction n with
  | zero => exact absurd h (Nat.not_lt_zero i)
  | succ n ih =>
    rcases Nat.lt_succ_iff_lt_or_eq.mp h with h' | h'
    · rw [passUpd, Function.update_noteq (Nat.ne_of_lt h'), ih h']
    · subst h'; rw [passUpd, Function.update_same]

theorem passUpd_ge {α : Type} (g : ℕ → α) (n : ℕ) (v : ℕ → α) (i : ℕ) (h : n ≤ i) :
    passUpd g n v i = v i := by
  induction n with
  | zero => rfl
  | succ n ih =>
    rw [passUpd, Function.update_noteq (Nat.ne_of_gt (Nat.lt_of_succ_le h)),
      ih (Nat.le_of_succ_le h)]

/-- Bridge between a sum over `List.range` and the `Finset.range` sum. -/
theorem listMapRangeSum (f : ℕ → ℚ) (n : ℕ) :
    ((List.range n).map f).sum = ∑ b in Finset.range n, f b := by
  induction n with
  | zero => simp
  | succ n ih => rw [List.range_succ, List.map_append, List.sum_append,
      Finset.sum_range_succ, ih]; simp

theorem cooToFun_append (ts us : List (ℕ × ℕ × ℚ)) (i j : ℕ) :
    cooToFun (ts ++ us) i j = cooToFun ts i j + cooToFun us i j := by
  simp [cooToFun]

theorem cooToFun_tripRow (idx : List ℕ) (Ke : ℕ → ℕ → ℚ) (c : ℚ) (a i j : ℕ) :
    cooToFun (tripRow idx Ke c a) i j
      = ∑ b in Finset.range idx.length,
          (if nth idx b = i ∧ nth idx a = j then c * Ke a b else 0) := by
  rw [cooToFun, tripRow, List.map_map, listMapRangeSum]
  rfl

theorem cooToFun_tripRows (idx : List ℕ) (Ke : ℕ → ℕ → ℚ) (c : ℚ) (n i j : ℕ) :
    cooToFun (tripRows idx Ke c n) i j
      = ∑ a in Finset.range n, ∑ b in Finset.range idx.length,
          (if nth idx b = i ∧ nth idx a = j then c * Ke a b else 0) := by
  induction n with
  | zero => simp [tripRows, cooToFun]
  | succ n ih =>
    rw [tripRows, cooToFun_append, ih, cooToFun_tripRow, Finset.sum_range_succ]

theorem cooToFun_scatterTriplets (idx : List ℕ) (Ke : ℕ → ℕ → ℚ) (c : ℚ) (i j : ℕ) :
    cooToFun (scatterTriplets idx Ke c) i j
      = ∑ a in Finset.range idx.length, ∑ b in Finset.range idx.length,
          (if nth idx b = i ∧ nth idx a = j then c * Ke a b else 0) :=
  cooToFun_tripRows idx Ke c idx.length i j

theorem cooToFun_passTrip (idx : ℕ → List ℕ) (KeOf : ℕ → ℕ → ℕ → ℚ) (cOf : ℕ → ℚ)
    (n i j : ℕ) :
    cooToFun (passTrip idx KeOf cOf n) i j
      = ∑ e in Finset.range n,
          ∑ a in Finset.range (idx e).length, ∑ b in Finset.range (idx e).length,
            (if nth (idx e) b = i ∧ nth (idx e) a = j then cOf e * KeOf e a b else 0) := by
  induction n with
  | zero => simp [passTrip, cooToFun]
  | succ n ih =>
    rw [passTrip, cooToFun_append, ih, cooToFun_scatterTriplets, Finset.sum_range_succ]

theorem nth_mem (l : List ℕ) (p : ℕ) (h : p < l.length) : nth l p ∈ l := by
  induction l generalizing p with
  | nil => exact absurd h (Nat.not_lt_zero p)
  | cons a t ih =>
    cases p with
    | zero => exact List.mem_cons_self a t
    | succ p => exact List.mem_cons_of_mem a (ih p (Nat.lt_of_succ_lt_succ h))

theorem mem_slice02 (l : List ℕ) (a : ℕ) (h : a ∈ slice02 l) : a ∈ l := by
  rcases List.mem_map.mp h with ⟨p, hp, rfl⟩
  exact nth_mem l p (of_decide_eq_true (List.mem_filter.mp hp).2)

theorem coordsAt_isOk (nx : List ℚ) (nodes : List ℕ)
    (h : ∀ nd ∈ nodes, nd < nx.length) : ∃ l, coordsAt nx nodes = Except.ok l := by
  induction nodes with
  | nil => exact ⟨[], rfl⟩
  | cons a t ih =>
    obtain ⟨l, hl⟩ := ih (fun nd hnd => h nd (List.mem_cons_of_mem a hnd))
    refine ⟨nx.getD a 0 :: l, ?_⟩
    simp only [coordsAt, List.mapM_cons, if_pos (h a (List.mem_cons_self a t))] at hl ⊢
    rw [hl]
    rfl

theorem rowsCoords_isOk (nx : List ℚ) (edof : List (List ℕ))
    (h : ∀ r ∈ edof, ∀ nd ∈ slice02 (r.map nodeOf), nd < nx.length) :
    ∃ ls, edof.mapM (fun r => coordsAt nx (slice02 (r.map nodeOf))) = Except.ok ls := by
  induction edof with
  | nil => exact ⟨[], rfl⟩
  | cons r t ih =>
    obtain ⟨l, hl⟩ := coordsAt_isOk nx _ (h r (List.mem_cons_self r t))
    obtain ⟨ls, hls⟩ := ih (fun r' hr' => h r' (List.mem_cons_of_mem r hr'))
    refine ⟨l :: ls, ?_⟩
    simp only [List.mapM_cons, hl, hls]
    rfl

theorem hread_hwrite_ne (h : Heap) (r r' : ℕ) (v : ℕ → ℚ) (hne : r ≠ r') :
    hread (hwrite h r' v) r = hread h r := by
  simp [hread, hwrite, Function.update_noteq hne]

theorem feVecLoop_frame (out : ℕ → ElemOut) (idx : ℕ → List ℕ) (x : ℕ → ℚ)
    (gref tref r : ℕ) (n : ℕ) (h : Heap) (hg : r ≠ gref) (ht : r ≠ tref) :
    hread (feVecLoop out idx x gref tref n h) r = hread h r ∧
      (feVecLoop out idx x gref tref n h).next = h.next := by
  induction n with
  | zero => exact ⟨rfl, rfl⟩
  | succ n ih =>
    rw [feVecLoop]
    exact ⟨by rw [hread_hwrite_ne _ _ _ _ ht, hread_hwrite_ne _ _ _ _ hg, ih.1], ih.2⟩

theorem nlVecLoop_frame (out : ℕ → ElemOut) (idx : ℕ → List ℕ) (x : ℕ → ℚ) (p : ℕ)
    (gref iref tref r : ℕ) (n : ℕ) (h : Heap) (hg : r ≠ gref) (hi : r ≠ iref)
    (ht : r ≠ tref) :
    hread (nlVecLoop out idx x p gref iref tref n h) r = hread h r ∧
      (nlVecLoop out idx x p gref iref tref n h).next = h.next := by
  induction n with
  | zero => exact ⟨rfl, rfl⟩
  | succ n ih =>
    rw [nlVecLoop]
    refine ⟨?_, ih.2⟩
    rw [hread_hwrite_ne _ _ _ _ ht, hread_hwrite_ne _ _ _ _ hi,
      hread_hwrite_ne _ _ _ _ hg, ih.1]

theorem halloc_fst (h : Heap) (v : ℕ → ℚ) : (halloc h v).1 = h.next := rfl

theorem halloc_next (h : Heap) (v : ℕ → ℚ) : (halloc h v).2.next = h.next + 1 := rfl

theorem hwrite_next (h : Heap) (r : ℕ) (v : ℕ → ℚ) : (hwrite h r v).next = h.next := rfl

theorem hread_halloc_ne (h : Heap) (v : ℕ → ℚ) (r : ℕ) (hr : r ≠ h.next) :
    hread (halloc h v).2 r = hread h r := by
  simp [halloc, hread, Function.update_noteq hr]

theorem feProg_frame (m : FEModel) (x : ℕ → ℚ) (ep : List ℚ) (ef : ElemFun)
    (sol : ℕ → ℚ) (Fref Uref : ℕ) (h0 : Heap) (hF : Fref < h0.next)
    (hU : Fref ≠ Uref) :
    hread (feProg m x ep ef sol Fref Uref h0) Fref = hread h0 Fref ∧
      h0.next ≤ (feProg m x ep ef sol Fref Uref h0).next := by
  have h1 : Fref ≠ h0.next := Nat.ne_of_lt hF
  have h2 : Fref ≠ h0.next + 1 := Nat.ne_of_lt (Nat.lt_succ_of_lt hF)
  have hloop := feVecLoop_frame (feOutAt m ep ef) (edofIdx m) x
    (halloc h0 (hread h0 Fref)).1 (halloc (halloc h0 (hread h0 Fref)).2 (fun _ => 0)).1
    Fref m.nElem (halloc (halloc h0 (hread h0 Fref)).2 (fun _ => 0)).2
    (by rw [halloc_fst]; exact h1)
    (by rw [halloc_fst, halloc_next]; exact h2)
  constructor
  · simp only [feProg]
    rw [hread_hwrite_ne _ _ _ _ hU, hloop.1,
      hread_halloc_ne _ _ _ (by rw [halloc_next]; exact h2),
      hread_halloc_ne _ _ _ h1]
  · simp only [feProg]
    rw [hwrite_next, hloop.2, halloc_next, halloc_next]
    omega

theorem nlIterProg_frame (m : FEModel) (x : ℕ → ℚ) (p : ℕ) (ep : List ℚ)
    (ef : ElemFun) (sol : ℕ → ℚ) (Fref Uref : ℕ) (h : Heap) (hF : Fref < h.next)
    (hU : Fref ≠ Uref) :
    hread (nlIterProg m x p ep ef sol Fref Uref h) Fref = hread h Fref ∧
      h.next ≤ (nlIterProg m x p ep ef sol Fref Uref h).next := by
  have h1 : Fref ≠ h.next := Nat.ne_of_lt hF
  have h2 : Fref ≠ h.next + 1 := Nat.ne_of_lt (Nat.lt_succ_of_lt hF)
  have h3 : Fref ≠ h.next + 2 := Nat.ne_of_lt (Nat.lt_succ_of_lt (Nat.lt_succ_of_lt hF))
  have hloop := nlVecLoop_frame
    (iterOut m ep ef
      (hread (halloc (halloc (halloc h (fun _ => 0)).2
        (hread (halloc h (fun _ => 0)).2 Fref)).2 (fun _ => 0)).2 Uref))
    (edofIdx m) x p
    (halloc (halloc h (fun _ => 0)).2 (hread (halloc h (fun _ => 0)).2 Fref)).1
    (halloc (halloc (halloc h (fun _ => 0)).2
      (hread (halloc h (fun _ => 0)).2 Fref)).2 (fun _ => 0)).1
    (halloc h (fun _ => 0)).1 Fref m.nElem
    (halloc (halloc (halloc h (fun _ => 0)).2
      (hread (halloc h (fun _ => 0)).2 Fref)).2 (fun _ => 0)).2
    (by rw [halloc_fst, halloc_next]; exact h2)
    (by rw [halloc_fst, halloc_next, halloc_next]; exact h3)
    (by rw [halloc_fst]; exact h1)
  constructor
  · simp only [nlIterProg]
    rw [hread_hwrite_ne _ _ _ _ hU, hloop.1,
      hread_halloc_ne _ _ _ (by rw [halloc_next, halloc_next]; exact h3),
      hread_halloc_ne _ _ _ (by rw [halloc_next]; exact h2),
      hread_halloc_ne _ _ _ h1]
  · simp only [nlIterProg]
    rw [hwrite_next, hloop.2, halloc_next, halloc_next, halloc_next]
    omega

theorem nlProg_frame (m : FEModel) (x : ℕ → ℚ) (p : ℕ) (ep : List ℚ) (ef : ElemFun)
    (sol : ℕ → ℚ) (Fref Uref : ℕ) (k : ℕ) (h0 : Heap) (hF : Fref < h0.next)
    (hU : Fref ≠ Uref) :
    hread (nlProg m x p ep ef sol Fref Uref k h0) Fref = hread h0 Fref ∧
      h0.next ≤ (nlProg m x p ep ef sol Fref Uref k h0).next := by
  induction k with
  | zero => exact feProg_frame m x ep ef sol Fref Uref h0 hF hU
  | succ k ih =>
    have hlt : Fref < (nlProg m x p ep ef sol Fref Uref k h0).next :=
      Nat.lt_of_lt_of_le hF ih.2
    have step := nlIterProg_frame m x p ep ef sol Fref Uref
      (nlProg m x p ep ef sol Fref Uref k h0) hlt hU
    exact ⟨by rw [nlProg, step.1, ih.1], by rw [nlProg]; exact le_trans ih.2 step.2⟩

theorem newtonLoop_exit (m : FEModel) (x : ℕ → ℚ) (p : ℕ) (F : ℕ → ℚ) (ep : List ℚ)
    (ef : ElemFun) (solver : Solver) (fuel : ℕ) (s : NLState)
    (h : ¬ s.err > (s.TOL : ℝ)) :
    newtonLoop m x p F ep ef solver (fuel + 1) s = s := by
  rw [newtonLoop, if_neg h]

theorem newtonLoop_break (m : FEModel) (x : ℕ → ℚ) (p : ℕ) (F : ℕ → ℚ) (ep : List ℚ)
    (ef : ElemFun) (solver : Solver) (fuel : ℕ) (s : NLState)
    (h : s.err > (s.TOL : ℝ)) (h100 : (newtonStep m x p F ep ef s).newtonIt = 100) :
    newtonLoop m x p F ep ef solver (fuel + 1) s = newtonStep m x p F ep ef s := by
  rw [newtonLoop, if_pos h]
  exact if_pos h100

theorem newtonLoop_cont (m : FEModel) (x : ℕ → ℚ) (p : ℕ) (F : ℕ → ℚ) (ep : List ℚ)
    (ef : ElemFun) (solver : Solver) (fuel : ℕ) (s : NLState)
    (h : s.err > (s.TOL : ℝ)) (h100 : ¬ (newtonStep m x p F ep ef s).newtonIt = 100) :
    newtonLoop m x p F ep ef solver (fuel + 1) s
      = newtonLoop m x p F ep ef solver fuel
          (newtonUpdate m solver (newtonStep m x p F ep ef s)) := by
  rw [newtonLoop, if_pos h]
  exact if_neg h100

theorem newtonStep_newtonIt (m : FEModel) (x : ℕ → ℚ) (p : ℕ) (F : ℕ → ℚ)
    (ep : List ℚ) (ef : ElemFun) (s : NLState) :
    (newtonStep m x p F ep ef s).newtonIt = s.newtonIt + 1 := rfl

theorem newtonStep_U (m : FEModel) (x : ℕ → ℚ) (p : ℕ) (F : ℕ → ℚ)
    (ep : List ℚ) (ef : ElemFun) (s : NLState) :
    (newtonStep m x p F ep ef s).U = s.U := rfl

theorem newtonUpdate_newtonIt (m : FEModel) (solver : Solver) (s : NLState) :
    (newtonUpdate m solver s).newtonIt = s.newtonIt := rfl

theorem newtonUpdate_err (m : FEModel) (solver : Solver) (s : NLState) :
    (newtonUpdate m solver s).err = s.err := rfl

/-- The Newton loop respects the 100-iteration cap: starting from an iteration
counter consistent with the remaining fuel, the final counter never exceeds
100, and a final state that still violates its tolerance can only arise from
the `newtonIt == 100` break. -/
theorem newtonLoop_cap (m : FEModel) (x : ℕ → ℚ) (p : ℕ) (F : ℕ → ℚ) (ep : List ℚ)
    (ef : ElemFun) (solver : Solver) (fuel : ℕ) (s : NLState)
    (hinv : s.newtonIt + fuel = 100) :
    (newtonLoop m x p F ep ef solver fuel s).newtonIt ≤ 100 ∧
      ((newtonLoop m x p F ep ef solver fuel s).err
          > ((newtonLoop m x p F ep ef solver fuel s).TOL : ℝ) →
        (newtonLoop m x p F ep ef solver fuel s).newtonIt = 100) := by
  induction fuel generalizing s with
  | zero =>
    rw [newtonLoop]
    omega
  | succ fuel ih =>
    by_cases hc : s.err > (s.TOL : ℝ)
    · by_cases h100 : (newtonStep m x p F ep ef s).newtonIt = 100
      · rw [newtonLoop_break m x p F ep ef solver fuel s hc h100]
        exact ⟨le_of_eq h100, fun _ => h100⟩
      · rw [newtonLoop_cont m x p F ep ef solver fuel s hc h100]
        apply ih
        rw [newtonUpdate_newtonIt, newtonStep_newtonIt]
        omega
    · rw [newtonLoop_exit m x p F ep ef solver fuel s hc]
      exact ⟨by omega, fun hgt => absurd hgt hc⟩

/-- Fixed-DOF entries of the displacement vector are never assigned by the
Newton loop: the update writes only through the free-DOF index list. -/
theorem newtonLoop_U_fixed (m : FEModel) (x : ℕ → ℚ) (p : ℕ) (F : ℕ → ℚ)
    (ep : List ℚ) (ef : ElemFun) (solver : Solver) (i : ℕ) (hi : i ∉ m.freedofs)
    (fuel : ℕ) (s : NLState) (h0 : s.U i = 0) :
    (newtonLoop m x p F ep ef solver fuel s).U i = 0 := by
  induction fuel generalizing s with
  | zero => rw [newtonLoop]; exact h0
  | succ fuel ih =>
    by_cases hc : s.err > (s.TOL : ℝ)
    · by_cases h100 : (newtonStep m x p F ep ef s).newtonIt = 100
      · rw [newtonLoop_break m x p F ep ef solver fuel s hc h100, newtonStep_U]
        exact h0
      · rw [newtonLoop_cont m x p F ep ef solver fuel s hc h100]
        apply ih
        show ixAssignVals _ m.freedofs _ i = 0
        rw [ixAssignVals_not_mem _ _ _ _ hi, newtonStep_U]
        exact h0
    · rw [newtonLoop_exit m x p F ep ef solver fuel s hc]
      exact h0

/-- The DOF index rows of the concrete test model have no duplicates. -/
theorem wModel_nodup : ∀ e, e < wModel.nElem → (edofIdx wModel e).Nodup :=
  fun _ _ => (by decide : (([1, 2, 3, 4, 5, 6] : List ℕ).map (fun d => d - 1)).Nodup)

/-- C1 (amended): for every call of the linear assembler `FE.fe` the global
stiffness triplets accumulate, summed over duplicate DOF index pairs, the
element stiffness entries scaled by `density[e]^penalty`; the full global force
vector (the copy of `F`) accumulates the element external force scaled by
`density[e]^1` (the code multiplies by `x[elem][0]`, not by
`x[elem][0]**SIMP_penal` as the original claim stated); and the body-only
vector `fext_tilde` accumulates the element external force unscaled. -/
theorem C1_linear_assembler (m : FEModel) (x : ℕ → ℚ) (SIMP_penal : ℕ) (F : ℕ → ℚ)
    (ep : List ℚ) (ef : ElemFun) (solver : Solver) (U0 : ℕ → ℚ)
    (hnod : ∀ e, e < m.nElem → (edofIdx m e).Nodup) :
    (∀ i j, cooToFun (fe m x SIMP_penal F ep ef solver U0).Ktrip i j
        = ∑ e in Finset.range m.nElem, ∑ a in Finset.range (edofIdx m e).length,
            ∑ b in Finset.range (edofIdx m e).length,
              (if nth (edofIdx m e) b = i ∧ nth (edofIdx m e) a = j
               then x e ^ SIMP_penal * (feOutAt m ep ef e).Ke a b else 0)) ∧
    (∀ i, (fe m x SIMP_penal F ep ef solver U0).fextGlobal i
        = F i + ∑ e in Finset.range m.nElem,
            scatterSum (edofIdx m e) (fun j => (feOutAt m ep ef e).fext j * x e ^ 1) i) ∧
    (∀ i, (fe m x SIMP_penal F ep ef solver U0).fext_tilde i
        = ∑ e in Finset.range m.nElem,
            scatterSum (edofIdx m e) (fun j => (feOutAt m ep ef e).fext j) i) := by
  refine ⟨fun i j => ?_, fun i => ?_, fun i => ?_⟩
  · exact cooToFun_passTrip (edofIdx m) (fun e => (feOutAt m ep ef e).Ke)
      (fun e => x e ^ SIMP_penal) m.nElem i j
  · show passAcc (edofIdx m) (fun e j => (feOutAt m ep ef e).fext j * x e) m.nElem F i = _
    rw [passAcc_eq _ _ _ _ _ hnod]
    simp [pow_one]
  · show passAcc (edofIdx m) (fun e j => (feOutAt m ep ef e).fext j) m.nElem
      (fun _ => 0) i = _
    rw [passAcc_eq _ _ _ _ _ hnod, zero_add]

/-- Witness for C1 at the concrete one-element model. -/
theorem C1_witness :
    (fe wModel wx 1 wzero wEp wEf wSolver wzero).fextGlobal 0
      = wzero 0 + ∑ e in Finset.range wModel.nElem,
          scatterSum (edofIdx wModel e)
            (fun j => (feOutAt wModel wEp wEf e).fext j * wx e ^ 1) 0 :=
  (C1_linear_assembler wModel wx 1 wzero wEp wEf wSolver wzero wModel_nodup).2.1 0

/-- Counterexample to C1 as stated: with density `1/2` and penalty exponent 2,
the assembled `fextGlobal` entry at DOF 0 is `0 + 1*(1/2) = 1/2` (scaling by
`density^1`), not the `0 + 1*(1/2)^2 = 1/4` that scaling by `density^penalty`
would give. -/
theorem C1_counterexample :
    (fe wModel cxX 2 wzero wEp wEf wSolver wzero).fextGlobal 0
        = wzero 0 + scatterSum (edofIdx wModel 0)
            (fun j => (feOutAt wModel wEp wEf 0).fext j * cxX 0 ^ 1) 0 ∧
      ¬ (fe wModel cxX 2 wzero wEp wEf wSolver wzero).fextGlobal 0
        = wzero 0 + scatterSum (edofIdx wModel 0)
            (fun j => (feOutAt wModel wEp wEf 0).fext j * cxX 0 ^ 2) 0 := by
  have hval : (fe wModel cxX 2 wzero wEp wEf wSolver wzero).fextGlobal 0 = 1 / 2 := by
    show passAcc (edofIdx wModel) (fun e j => (feOutAt wModel wEp wEf e).fext j * cxX e)
      wModel.nElem wzero 0 = 1 / 2
    rw [passAcc_eq _ _ _ _ _ wModel_nodup]
    show (0 : ℚ) + ∑ e in Finset.range 1, _ = 1 / 2
    rw [Finset.sum_range_one]
    norm_num [wModel, edofIdx, scatterSum, feOutAt, wEf, cxX]
  constructor
  · rw [hval]
    norm_num [wModel, edofIdx, scatterSum, feOutAt, wEf, cxX, wzero]
  · rw [hval]
    norm_num [wModel, edofIdx, scatterSum, feOutAt, wEf, cxX, wzero]

/-- C2: in every Newton iteration of `FE.fe_nl` and for every element, the
external force is accumulated into `fextGlobal` scaled by `density[e]^1`, the
internal force into `fintGlobal` scaled by `density[e]^penalty`, the body-only
force `fext_tilde` unscaled, and the residual-derivative row of element `e` is
`penalty * density[e]^(penalty-1) * fint - fext` on the element's local DOF
positions. -/
theorem C2_newton_accumulation (m : FEModel) (x : ℕ → ℚ) (SIMP_const : ℕ) (F : ℕ → ℚ)
    (ep : List ℚ) (ef : ElemFun) (s : NLState)
    (hnod : ∀ e, e < m.nElem → (edofIdx m e).Nodup) :
    (∀ i, (newtonStep m x SIMP_const F ep ef s).fextGlobal i
        = F i + ∑ e in Finset.range m.nElem,
            scatterSum (edofIdx m e)
              (fun j => (iterOut m ep ef s.U e).fext j * x e ^ 1) i) ∧
    (∀ i, (newtonStep m x SIMP_const F ep ef s).fintGlobal i
        = ∑ e in Finset.range m.nElem,
            scatterSum (edofIdx m e)
              (fun j => (iterOut m ep ef s.U e).fint j * x e ^ SIMP_const) i) ∧
    (∀ i, (newtonStep m x SIMP_const F ep ef s).fext_tilde i
        = ∑ e in Finset.range m.nElem,
            scatterSum (edofIdx m e) (fun j => (iterOut m ep ef s.U e).fext j) i) ∧
    (∀ e, e < m.nElem → ∀ j,
        (newtonStep m x SIMP_const F ep ef s).dR e j
          = (SIMP_const : ℚ) * x e ^ (SIMP_const - 1) * (iterOut m ep ef s.U e).fint j
              - (iterOut m ep ef s.U e).fext j) := by
  refine ⟨fun i => ?_, fun i => ?_, fun i => ?_, fun e he j => ?_⟩
  · show passAcc (edofIdx m) (fun e j => (iterOut m ep ef s.U e).fext j * x e)
      m.nElem F i = _
    rw [passAcc_eq _ _ _ _ _ hnod]
    simp [pow_one]
  · show passAcc (edofIdx m)
      (fun e j => (iterOut m ep ef s.U e).fint j * x e ^ SIMP_const) m.nElem
      (fun _ => 0) i = _
    rw [passAcc_eq _ _ _ _ _ hnod, zero_add]
  · show passAcc (edofIdx m) (fun e j => (iterOut m ep ef s.U e).fext j) m.nElem
      (fun _ => 0) i = _
    rw [passAcc_eq _ _ _ _ _ hnod, zero_add]
  · show passUpd (fun e => fun j =>
      (SIMP_const : ℚ) * x e ^ (SIMP_const - 1) * (iterOut m ep ef s.U e).fint j
        - (iterOut m ep ef s.U e).fext j) m.nElem (fun _ _ => 0) e j = _
    rw [passUpd_lt _ _ _ _ he]

/-- Witness for C2 at the concrete one-element model and zero state. -/
theorem C2_witness :
    (newtonStep wModel wx 1 wzero wEp wEf wState).fintGlobal 0
      = ∑ e in Finset.range wModel.nElem,
          scatterSum (edofIdx wModel e)
            (fun j => (iterOut wModel wEp wEf wState.U e).fint j * wx e ^ 1) 0 :=
  (C2_newton_accumulation wModel wx 1 wzero wEp wEf wState wModel_nodup).2.1 0

/-- C3 (amended): in `FE.fe_nl` the residual is `R = fintGlobal - fextGlobal`,
the convergence metric is the Euclidean norm of `R` restricted to the free
DOFs, the loop is entered with the sentinel error `1e9` checked against the
fixed bootstrap tolerance `1e-11`, each iteration sets the tolerance to
`1e-11 * max(max(|fextGlobal|), 1e4)`, and the updated tolerance governs the
next evaluation of the loop condition — which is precisely the check of the
residual just computed (the residual of iteration `k` is compared against the
tolerance computed in iteration `k`, not against the previous tolerance as the
original claim stated; only the check already performed on entry of iteration
`k` used the previous tolerance). -/
theorem C3_convergence_control (m : FEModel) (x : ℕ → ℚ) (SIMP_const : ℕ) (F : ℕ → ℚ)
    (ep : List ℚ) (ef : ElemFun) (solver : Solver) :
    (∀ s, (newtonStep m x SIMP_const F ep ef s).err
        = Real.sqrt (((m.freedofs.map (fun i =>
            ((newtonStep m x SIMP_const F ep ef s).fintGlobal i
              - (newtonStep m x SIMP_const F ep ef s).fextGlobal i) ^ 2)).sum : ℚ) : ℝ)) ∧
    (∀ fr : FeOut, (nlInit fr).TOL = 1e-11 ∧ (nlInit fr).err = 1e9) ∧
    (∀ s, (newtonUpdate m solver s).TOL
          = (1e-11 : ℚ) * max (maxAbs s.fextGlobal m.ndof) 1e4 ∧
        (newtonUpdate m solver s).err = s.err) ∧
    (∀ fuel s, s.err > (s.TOL : ℝ) →
        (newtonStep m x SIMP_const F ep ef s).newtonIt ≠ 100 →
        newtonLoop m x SIMP_const F ep ef solver (fuel + 1) s
          = newtonLoop m x SIMP_const F ep ef solver fuel
              (newtonUpdate m solver (newtonStep m x SIMP_const F ep ef s))) ∧
    (∀ fuel s, ¬ s.err > (s.TOL : ℝ) →
        newtonLoop m x SIMP_const F ep ef solver (fuel + 1) s = s) :=
  ⟨fun _ => rfl, fun _ => ⟨rfl, rfl⟩, fun _ => ⟨rfl, rfl⟩,
    fun fuel s h h100 => newtonLoop_cont m x SIMP_const F ep ef solver fuel s h h100,
    fun fuel s h => newtonLoop_exit m x SIMP_const F ep ef solver fuel s h⟩

/-- Witness for C3 at the concrete model: the loop is entered with the
bootstrap tolerance and sentinel error. -/
theorem C3_witness :
    (nlInit (fe wModel wx 1 wzero wEp wEf wSolver wzero)).TOL = 1e-11 ∧
      (nlInit (fe wModel wx 1 wzero wEp wEf wSolver wzero)).err = 1e9 :=
  (C3_convergence_control wModel wx 1 wzero wEp wEf wSolver).2.1
    (fe wModel wx 1 wzero wEp wEf wSolver wzero)

/-- A fold of `max` over a list of zeros starting from zero is zero. -/
theorem foldr_max_zero (l : List ℚ) (h : ∀ a ∈ l, a = 0) : l.foldr max 0 = 0 := by
  induction l with
  | nil => rfl
  | cons a t ih =>
    rw [List.foldr_cons, h a (List.mem_cons_self a t),
      ih (fun b hb => h b (List.mem_cons_of_mem a hb))]
    simp

theorem cS1_fext (i : ℕ) : cS1.fextGlobal i = 0 := by
  show passAcc (edofIdx wModel) (fun e j => (iterOut wModel wEp cEf cS0.U e).fext j * wx e)
    wModel.nElem wzero i = 0
  rw [passAcc_eq _ _ _ _ _ wModel_nodup]
  show (0 : ℚ) + ∑ e in Finset.range 1, _ = 0
  rw [Finset.sum_range_one]
  norm_num [wModel, edofIdx, scatterSum, iterOut, cEf, wx]

theorem cS1_fint0 : cS1.fintGlobal 0 = 1 / 20000000 := by
  show passAcc (edofIdx wModel)
    (fun e j => (iterOut wModel wEp cEf cS0.U e).fint j * wx e ^ 1)
    wModel.nElem (fun _ => 0) 0 = 1 / 20000000
  rw [passAcc_eq _ _ _ _ _ wModel_nodup]
  show (0 : ℚ) + ∑ e in Finset.range 1, _ = _
  rw [Finset.sum_range_one]
  norm_num [wModel, edofIdx, scatterSum, iterOut, cEf, wx]

theorem cS1_err : cS1.err = ((1 / 20000000 : ℚ) : ℝ) := by
  have h1 : cS1.err = Real.sqrt (((wModel.freedofs.map
      (fun i => (cS1.fintGlobal i - cS1.fextGlobal i) ^ 2)).sum : ℚ) : ℝ) := rfl
  have h2 : (wModel.freedofs.map
      (fun i => (cS1.fintGlobal i - cS1.fextGlobal i) ^ 2)).sum
      = (1 / 20000000 : ℚ) ^ 2 := by
    show (([0] : List ℕ).map (fun i => (cS1.fintGlobal i - cS1.fextGlobal i) ^ 2)).sum = _
    rw [List.map_cons, List.map_nil, List.sum_cons, List.sum_nil, cS1_fint0, cS1_fext]
    norm_num
  rw [h1, h2]
  push_cast
  rw [Real.sqrt_sq (by norm_num)]

theorem cS2_TOL : cS2.TOL = 1 / 10000000 := by
  show (1e-11 : ℚ) * max (maxAbs cS1.fextGlobal wModel.ndof) 1e4 = _
  have hmax : maxAbs cS1.fextGlobal wModel.ndof = 0 := by
    apply foldr_max_zero
    intro a ha
    rcases List.mem_map.mp ha with ⟨i, _, rfl⟩
    rw [cS1_fext i]
    exact abs_zero
  rw [hmax, max_eq_right (by norm_num : (0 : ℚ) ≤ 1e4)]
  norm_num

theorem cLoop : newtonLoop wModel wx 1 wzero wEp cEf wSolver 100 cS0 = cS2 := by
  have hc : cS0.err > (cS0.TOL : ℝ) := by
    show (1e9 : ℝ) > ((1e-11 : ℚ) : ℝ)
    norm_num
  have h100 : (newtonStep wModel wx 1 wzero wEp cEf cS0).newtonIt ≠ 100 := by
    rw [newtonStep_newtonIt]
    decide
  have hc2 : ¬ cS2.err > (cS2.TOL : ℝ) := by
    rw [show cS2.err = cS1.err from rfl, cS1_err, cS2_TOL]
    exact_mod_cast (by norm_num : ¬ (1 / 20000000 : ℚ) > 1 / 10000000)
  show newtonLoop wModel wx 1 wzero wEp cEf wSolver (99 + 1) cS0 = cS2
  rw [newtonLoop_cont wModel wx 1 wzero wEp cEf wSolver 99 cS0 hc h100]
  show newtonLoop wModel wx 1 wzero wEp cEf wSolver (98 + 1) cS2 = cS2
  exact newtonLoop_exit wModel wx 1 wzero wEp cEf wSolver 98 cS2 hc2

/-- Counterexample to C3 as stated: in the concrete run the Newton loop stops
after a single iteration (`newtonIt = 1`, far from the 100 cap) although the
residual just computed, `5e-8`, exceeds the pre-update bootstrap tolerance
`1e-11` — so the check that stopped the loop compared the just-computed
residual against the *updated* tolerance `1e-7`, contradicting the claim that
the updated tolerance does not govern the check for the residual just
computed. -/
theorem C3_counterexample :
    (fe_nl wModel wx 1 wzero wEp cEf wSolver wzero).newtonIt = 1 ∧
      ((1e-11 : ℚ) : ℝ) < (fe_nl wModel wx 1 wzero wEp cEf wSolver wzero).err := by
  have hne : ¬ (wEp.getD 3 0 = 1) := by norm_num [wEp]
  constructor
  · simp only [fe_nl]
    rw [if_neg hne]
    show (newtonLoop wModel wx 1 wzero wEp cEf wSolver 100 cS0).newtonIt = 1
    rw [cLoop]
    rfl
  · simp only [fe_nl]
    rw [if_neg hne]
    show ((1e-11 : ℚ) : ℝ) < (newtonLoop wModel wx 1 wzero wEp cEf wSolver 100 cS0).err
    rw [cLoop, show cS2.err = cS1.err from rfl, cS1_err]
    exact_mod_cast (by norm_num : (1e-11 : ℚ) < 1 / 20000000)

/-- C4: for every nonlinear input, the Newton loop of `FE.fe_nl` performs at
most 100 iterations; a returned state whose residual still exceeds its
tolerance carries `newtonIt = 100` exactly (the MaxIterationsReached outcome),
and `FE.fe_nl` returns the loop's last computed displacement field rather than
raising. -/
theorem C4_iteration_cap (m : FEModel) (x : ℕ → ℚ) (SIMP_const : ℕ) (F : ℕ → ℚ)
    (ep : List ℚ) (ef : ElemFun) (solver : Solver) (U0 : ℕ → ℚ)
    (hnl : ¬ ep.getD 3 0 = 1) :
    (fe_nl m x SIMP_const F ep ef solver U0).newtonIt ≤ 100 ∧
      ((fe_nl m x SIMP_const F ep ef solver U0).err
          > ((fe_nl m x SIMP_const F ep ef solver U0).TOL : ℝ) →
        (fe_nl m x SIMP_const F ep ef solver U0).newtonIt = 100) ∧
      (fe_nl m x SIMP_const F ep ef solver U0).U
        = (newtonLoop m x SIMP_const F ep ef solver 100
            (nlInit (fe m x SIMP_const F ep ef solver U0))).U := by
  have hcap := newtonLoop_cap m x SIMP_const F ep ef solver 100
    (nlInit (fe m x SIMP_const F ep ef solver U0)) rfl
  simp only [fe_nl]
  rw [if_neg hnl]
  exact ⟨hcap.1, hcap.2, rfl⟩

/-- Witness for C4 at the concrete nonlinear model. -/
theorem C4_witness :
    (fe_nl wModel wx 1 wzero wEp wEf wSolver wzero).newtonIt ≤ 100 ∧
      ((fe_nl wModel wx 1 wzero wEp wEf wSolver wzero).err
          > ((fe_nl wModel wx 1 wzero wEp wEf wSolver wzero).TOL : ℝ) →
        (fe_nl wModel wx 1 wzero wEp wEf wSolver wzero).newtonIt = 100) ∧
      (fe_nl wModel wx 1 wzero wEp wEf wSolver wzero).U
        = (newtonLoop wModel wx 1 wzero wEp wEf wSolver 100
            (nlInit (fe wModel wx 1 wzero wEp wEf wSolver wzero))).U :=
  C4_iteration_cap wModel wx 1 wzero wEp wEf wSolver wzero (by norm_num [wEp])

/-- C5 (amended): when the element-property linear flag `ep[3] == 1`,
`FE.fe_nl` performs no Newton iteration and returns the `FE.fe` displacement
unchanged, the literal empty list for the residual-derivative `dR` and the von
Mises stress `sig_VM`, and the all-zero array (not the empty list, contrary to
the original claim) for the hydrostatic strain `eps_h`, together with the
`FE.fe` force vectors and stiffness triplets. -/
theorem C5_linear_exit (m : FEModel) (x : ℕ → ℚ) (SIMP_const : ℕ) (F : ℕ → ℚ)
    (ep : List ℚ) (ef : ElemFun) (solver : Solver) (U0 : ℕ → ℚ)
    (hlin : ep.getD 3 0 = 1) :
    (fe_nl m x SIMP_const F ep ef solver U0).U
        = (fe m x SIMP_const F ep ef solver U0).U ∧
      (fe_nl m x SIMP_const F ep ef solver U0).dR = PyVal.emptyList ∧
      (fe_nl m x SIMP_const F ep ef solver U0).sigVM = PyVal.emptyList ∧
      (fe_nl m x SIMP_const F ep ef solver U0).epsH = PyVal.arr (fun _ => (0 : ℚ)) ∧
      (fe_nl m x SIMP_const F ep ef solver U0).newtonIt = 0 ∧
      (fe_nl m x SIMP_const F ep ef solver U0).fext_tilde
        = (fe m x SIMP_const F ep ef solver U0).fext_tilde ∧
      (fe_nl m x SIMP_const F ep ef solver U0).fextGlobal
        = (fe m x SIMP_const F ep ef solver U0).fextGlobal ∧
      (fe_nl m x SIMP_const F ep ef solver U0).Ktrip
        = (fe m x SIMP_const F ep ef solver U0).Ktrip := by
  simp only [fe_nl]
  rw [if_pos hlin]
  exact ⟨rfl, rfl, rfl, rfl, rfl, rfl, rfl, rfl⟩

/-- Witness for C5 at the concrete linear model. -/
theorem C5_witness :
    (fe_nl wModel wx 1 wzero wEpLin wEf wSolver wzero).U
        = (fe wModel wx 1 wzero wEpLin wEf wSolver wzero).U ∧
      (fe_nl wModel wx 1 wzero wEpLin wEf wSolver wzero).dR = PyVal.emptyList ∧
      (fe_nl wModel wx 1 wzero wEpLin wEf wSolver wzero).sigVM = PyVal.emptyList ∧
      (fe_nl wModel wx 1 wzero wEpLin wEf wSolver wzero).epsH
        = PyVal.arr (fun _ => (0 : ℚ)) ∧
      (fe_nl wModel wx 1 wzero wEpLin wEf wSolver wzero).newtonIt = 0 ∧
      (fe_nl wModel wx 1 wzero wEpLin wEf wSolver wzero).fext_tilde
        = (fe wModel wx 1 wzero wEpLin wEf wSolver wzero).fext_tilde ∧
      (fe_nl wModel wx 1 wzero wEpLin wEf wSolver wzero).fextGlobal
        = (fe wModel wx 1 wzero wEpLin wEf wSolver wzero).fextGlobal ∧
      (fe_nl wModel wx 1 wzero wEpLin wEf wSolver wzero).Ktrip
        = (fe wModel wx 1 wzero wEpLin wEf wSolver wzero).Ktrip :=
  C5_linear_exit wModel wx 1 wzero wEpLin wEf wSolver wzero (by norm_num [wEpLin])

/-- Counterexample to C5 as stated: on the linear early exit with one element
the hydrostatic-strain output `eps_h` is the all-zero array `np.zeros((1,1))`,
not the empty list, so the stress/strain outputs are not all empty. -/
theorem C5_counterexample :
    (fe_nl wModel wx 1 wzero wEpLin wEf wSolver wzero).epsH ≠ PyVal.emptyList ∧
      (fe_nl wModel wx 1 wzero wEpLin wEf wSolver wzero).epsH
        = PyVal.arr (fun _ => (0 : ℚ)) := by
  have hlin : wEpLin.getD 3 0 = 1 := by norm_num [wEpLin]
  constructor
  · simp only [fe_nl]
    rw [if_pos hlin]
    intro hcon
    exact PyVal.noConfusion hcon
  · simp only [fe_nl]
    rw [if_pos hlin]

/-- C6: entries of the displacement vector at fixed DOFs (indices outside the
free-DOF list) remain zero throughout `FE.fe` and every Newton iteration of
`FE.fe_nl`, provided they were zero before the call: the linear solve and the
Newton update assign only free-DOF entries. -/
theorem C6_fixed_dofs (m : FEModel) (x : ℕ → ℚ) (SIMP_const : ℕ) (F : ℕ → ℚ)
    (ep : List ℚ) (ef : ElemFun) (solver : Solver) (U0 : ℕ → ℚ) (i : ℕ)
    (hfree : i ∉ m.freedofs) (h0 : U0 i = 0) :
    (fe m x SIMP_const F ep ef solver U0).U i = 0 ∧
      (∀ fuel s, s.U i = 0 →
        (newtonLoop m x SIMP_const F ep ef solver fuel s).U i = 0) ∧
      (fe_nl m x SIMP_const F ep ef solver U0).U i = 0 := by
  have hfe : (fe m x SIMP_const F ep ef solver U0).U i = 0 := by
    show ixAssignVals U0 m.freedofs _ i = 0
    rw [ixAssignVals_not_mem _ _ _ _ hfree]
    exact h0
  refine ⟨hfe,
    fun fuel s hs => newtonLoop_U_fixed m x SIMP_const F ep ef solver i hfree fuel s hs,
    ?_⟩
  by_cases hlin : ep.getD 3 0 = 1
  · simp only [fe_nl]
    rw [if_pos hlin]
    exact hfe
  · simp only [fe_nl]
    rw [if_neg hlin]
    exact newtonLoop_U_fixed m x SIMP_const F ep ef solver i hfree 100 _ hfe

/-- Witness for C6 at the concrete model: DOF 1 is fixed and stays zero. -/
theorem C6_witness :
    (fe wModel wx 1 wzero wEp wEf wSolver wzero).U 1 = 0 ∧
      (∀ fuel s, s.U 1 = 0 →
        (newtonLoop wModel wx 1 wzero wEp wEf wSolver fuel s).U 1 = 0) ∧
      (fe_nl wModel wx 1 wzero wEp wEf wSolver wzero).U 1 = 0 :=
  C6_fixed_dofs wModel wx 1 wzero wEp wEf wSolver wzero 1 (by decide) rfl

/-- C7: constructing the model initializer with a connectivity matrix whose
rows have a length other than 6 or 8 fails with the unsupported-element-shape
error, and with row length 6 or 8 (and in-range node coordinates) it succeeds
with no such error. -/
theorem C7_element_shape (edof : List (List ℕ)) (nx ny : List ℚ) (fixdofs : List ℕ)
    (r : List ℕ) (rest : List (List ℕ)) (he : edof = r :: rest) :
    ((r.length ≠ 6 ∧ r.length ≠ 8) →
        initFE edof nx ny fixdofs = Except.error FEError.unsupportedElementShape) ∧
      ((r.length = 6 ∨ r.length = 8) →
        (∀ row ∈ edof, ∀ nd ∈ slice02 (row.map nodeOf),
          nd < nx.length ∧ nd < ny.length) →
        ∃ out, initFE edof nx ny fixdofs = Except.ok out) := by
  subst he
  constructor
  · rintro ⟨h6, h8⟩
    have hcond : ¬ ((List.headD (r :: rest) []).length = 6
        ∨ (List.headD (r :: rest) []).length = 8) := by
      simp only [List.headD_cons]
      intro hor
      rcases hor with h | h
      · exact h6 h
      · exact h8 h
    simp only [initFE]
    rw [if_neg hcond]
  · intro hlen hbound
    obtain ⟨ex, hex⟩ := rowsCoords_isOk nx (r :: rest)
      (fun row hr nd hnd => (hbound row hr nd hnd).1)
    obtain ⟨ey, hey⟩ := rowsCoords_isOk ny (r :: rest)
      (fun row hr nd hnd => (hbound row hr nd hnd).2)
    refine ⟨{ ndof := maxDof (r :: rest)
              nElem := (r :: rest).length
              elemX := ex
              elemY := ey
              freedofs := (List.range (maxDof (r :: rest))).filter
                (fun d => decide (d ∉ fixdofs)) }, ?_⟩
    simp only [initFE]
    rw [if_pos (by simpa using hlen)]
    simp only [hex, hey]
    rfl

/-- Witness for C7: a single length-6 row with three in-range nodes
initializes successfully. -/
theorem C7_witness :
    ∃ out, initFE [[1, 2, 3, 4, 5, 6]] [0, 0, 0] [0, 0, 0] []
      = Except.ok out :=
  (C7_element_shape [[1, 2, 3, 4, 5, 6]] [0, 0, 0] [0, 0, 0] []
    [1, 2, 3, 4, 5, 6] [] rfl).2 (Or.inl rfl) (by decide)

/-- C8: if every per-element stiffness matrix returned by the element routine
is symmetric, the global stiffness assembled by `FE.fe` equals its transpose,
in particular for an all-equal density field and penalty exponent 1. -/
theorem C8_stiffness_symmetric (m : FEModel) (x : ℕ → ℚ) (SIMP_penal : ℕ)
    (F : ℕ → ℚ) (ep : List ℚ) (ef : ElemFun) (solver : Solver) (U0 : ℕ → ℚ)
    (c : ℚ)
    (hsym : ∀ e a b, (feOutAt m ep ef e).Ke a b = (feOutAt m ep ef e).Ke b a)
    (hx : ∀ e, x e = c) (hp : SIMP_penal = 1) :
    ∀ i j, cooToFun (fe m x SIMP_penal F ep ef solver U0).Ktrip i j
        = cooToFun (fe m x SIMP_penal F ep ef solver U0).Ktrip j i := by
  intro i j
  show cooToFun (passTrip (edofIdx m) (fun e => (feOutAt m ep ef e).Ke)
      (fun e => x e ^ SIMP_penal) m.nElem) i j
    = cooToFun (passTrip (edofIdx m) (fun e => (feOutAt m ep ef e).Ke)
      (fun e => x e ^ SIMP_penal) m.nElem) j i
  rw [cooToFun_passTrip, cooToFun_passTrip]
  refine Finset.sum_congr rfl (fun e _ => ?_)
  conv_rhs => rw [Finset.sum_comm]
  refine Finset.sum_congr rfl (fun u _ => Finset.sum_congr rfl (fun v _ => ?_))
  exact if_congr and_comm (by rw [hsym e u v]) rfl

/-- Witness for C8 at the concrete model with the constant (symmetric) unit
stiffness. -/
theorem C8_witness :
    cooToFun (fe wModel wx 1 wzero wEp wEf wSolver wzero).Ktrip 0 1
      = cooToFun (fe wModel wx 1 wzero wEp wEf wSolver wzero).Ktrip 1 0 :=
  C8_stiffness_symmetric wModel wx 1 wzero wEp wEf wSolver wzero 1
    (fun _ _ _ => rfl) (fun _ => rfl) rfl 0 1

/-- C9: in every Newton iteration of `FE.fe_nl` and for every element, the von
Mises stress output is `sqrt(((s0-s1)^2+(s1-s2)^2+(s2-s0)^2)/2 +
3*(s3^2+s4^2+s5^2))` of the element's 6-component stress and the hydrostatic
strain output is the sum of the first two strain components divided by 3; in
particular the stress `[1,2,3,0,0,0]` yields von Mises `sqrt 3`. -/
theorem C9_stress_strain (m : FEModel) (x : ℕ → ℚ) (SIMP_const : ℕ) (F : ℕ → ℚ)
    (ep : List ℚ) (ef : ElemFun) (s : NLState) :
    (∀ e, e < m.nElem →
        (newtonStep m x SIMP_const F ep ef s).sigVM e
            = vonMisesR ((iterOut m ep ef s.U e).sig) ∧
          (newtonStep m x SIMP_const F ep ef s).epsH e
            = ((iterOut m ep ef s.U e).eps 0 + (iterOut m ep ef s.U e).eps 1) / 3) ∧
      vonMisesSq sigDemo = 3 ∧
      vonMisesR sigDemo = Real.sqrt 3 := by
  have hv : vonMisesSq sigDemo = 3 := by
    show ((1 - 2 : ℚ) ^ 2 + (2 - 3) ^ 2 + (3 - 1) ^ 2) / 2
      + 3 * ((0 : ℚ) ^ 2 + 0 ^ 2 + 0 ^ 2) = 3
    norm_num
  refine ⟨fun e he => ⟨?_, ?_⟩, hv, ?_⟩
  · show passUpd (fun e => vonMisesR (iterOut m ep ef s.U e).sig) m.nElem s.sigVM e = _
    rw [passUpd_lt _ _ _ _ he]
  · show passUpd (fun e =>
      ((iterOut m ep ef s.U e).eps 0 + (iterOut m ep ef s.U e).eps 1) / 3)
      m.nElem s.epsH e = _
    rw [passUpd_lt _ _ _ _ he]
  · show Real.sqrt ((vonMisesSq sigDemo : ℚ) : ℝ) = Real.sqrt 3
    rw [hv]
    norm_num

/-- Witness for C9 at the concrete model and zero state. -/
theorem C9_witness :
    (newtonStep wModel wx 1 wzero wEp wEf wState).sigVM 0
        = vonMisesR ((iterOut wModel wEp wEf wState.U 0).sig) ∧
      (newtonStep wModel wx 1 wzero wEp wEf wState).epsH 0
        = ((iterOut wModel wEp wEf wState.U 0).eps 0
            + (iterOut wModel wEp wEf wState.U 0).eps 1) / 3 :=
  (C9_stress_strain wModel wx 1 wzero wEp wEf wState).1 0 (by decide)

/-- C10: neither `FE.fe` nor `FE.fe_nl` (for any number of Newton iterations)
mutates the caller's applied load vector `F`: all force accumulation happens on
the freshly allocated copy of `F` and on freshly zeroed arrays, so the heap
cell holding `F` is unchanged by the whole mutation trace. -/
theorem C10_F_unchanged (m : FEModel) (x : ℕ → ℚ) (SIMP_const : ℕ) (ep : List ℚ)
    (ef : ElemFun) (sol : ℕ → ℚ) (Fref Uref : ℕ) (k : ℕ) (h0 : Heap)
    (hF : Fref < h0.next) (hU : Fref ≠ Uref) :
    hread (feProg m x ep ef sol Fref Uref h0) Fref = hread h0 Fref ∧
      hread (nlProg m x SIMP_const ep ef sol Fref Uref k h0) Fref = hread h0 Fref :=
  ⟨(feProg_frame m x ep ef sol Fref Uref h0 hF hU).1,
    (nlProg_frame m x SIMP_const ep ef sol Fref Uref k h0 hF hU).1⟩

/-- Witness for C10 on a concrete heap: array 0 holds `F`, array 1 holds `U`,
three Newton iterations. -/
theorem C10_witness :
    hread (feProg wModel wx wEp wEf wzero 0 1 wHeap) 0 = hread wHeap 0 ∧
      hread (nlProg wModel wx 1 wEp wEf wzero 0 1 3 wHeap) 0 = hread wHeap 0 :=
  C10_F_unchanged wModel wx 1 wEp wEf wzero 0 1 3 wHeap (by decide) (by decide)

end Pytopt
